import Mathlib

/-!
Verification development for the paip-python logic-programming engine
(`paip/logic.py`): a shallow embedding of the term model, unification,
binding environments, the clause database and the resolution prover,
together with theorems settling the specification claims.

Modelling conventions:
* `Atom`, `Var` and `Relation` objects become the three constructors of
  `Term`.  Python `==` on these classes compares the wrapped data
  (`Var.__eq__` compares names).  `Var` defines no `__hash__`, so in
  Python 2 the class keeps the default id-based hash and dicts and sets
  keyed by `Var` objects key them by object identity, not by name.  Two
  models are therefore used.  The name-keyed model (`Env`, `envGet`,
  `envSet`, `dedup`, `recursiveRename`) identifies a variable with its
  name; it coincides with the program exactly on executions in which each
  variable name is carried by a single `Var` object — the regime of every
  claim settled with it (conventionally built clauses, ground facts, and
  the engine's own renamed instances, which allocate one fresh object per
  name).  Where object identity is observable — binding one of two
  same-named objects (C3) or renaming a clause holding two same-named
  objects (C5) — the object-level model (`ObjTerm`, `ObjEnv`, ...) keys
  dict and set operations by the id while `==` compares names, as the
  program does.
* A binding environment (a Python dict from `Var` to term) is an
  association list; insertion prepends and lookup takes the first match,
  which is observationally the dict behaviour (later insertion wins,
  emptiness is preserved: entries are never deleted).
* Failure (`False` in Python) is `none`; success is `some env`.
  Python truthiness tests (`if not bindings`) treat the empty dict like
  `False`; this is modelled exactly (`pyFalsy`).
* The process-wide fresh-variable counter `Var.counter` and the mutable
  database are threaded explicitly through the prover.
* The prover can diverge, so it takes a fuel argument; `none` at the top
  of `run` means the fuel was exhausted (the Python program would still
  be running).  All functions are structurally recursive so that every
  concrete run evaluates inside the kernel.
-/

namespace PaipLogic

/-- Terms of the engine: `Atom(atom)`, `Var(var)` and `Relation(pred, args)`
from `logic.py`. -/
inductive Term where
  | atom : String → Term
  | var : String → Term
  | rel : String → List Term → Term

mutual
/-- Python structural equality on terms: `Atom.__eq__` compares the wrapped
values, `Var.__eq__` compares the names (identity is by name), and
`Relation.__eq__` compares predicate and the argument lists pairwise;
terms of different kinds are never equal (the `isinstance` guards). -/
def termBeq : Term → Term → Bool
  | .atom a, .atom b => a == b
  | .var a, .var b => a == b
  | .rel p as, .rel q bs => p == q && argsBeq as bs
  | _, _ => false
/-- Pairwise structural equality of argument lists (`list(self.args) ==
list(other.args)`). -/
def argsBeq : List Term → List Term → Bool
  | [], [] => true
  | a :: as, b :: bs => termBeq a b && argsBeq as bs
  | _, _ => false
end

mutual
theorem termBeq_iff : ∀ a b : Term, termBeq a b = true ↔ a = b
  | .atom a, .atom b => by simp [termBeq]
  | .atom _, .var _ => by simp [termBeq]
  | .atom _, .rel _ _ => by simp [termBeq]
  | .var _, .atom _ => by simp [termBeq]
  | .var a, .var b => by simp [termBeq]
  | .var _, .rel _ _ => by simp [termBeq]
  | .rel _ _, .atom _ => by simp [termBeq]
  | .rel _ _, .var _ => by simp [termBeq]
  | .rel p as, .rel q bs => by
      simp [termBeq, argsBeq_iff as bs]
theorem argsBeq_iff : ∀ as bs : List Term, argsBeq as bs = true ↔ as = bs
  | [], [] => by simp [argsBeq]
  | [], _ :: _ => by simp [argsBeq]
  | _ :: _, [] => by simp [argsBeq]
  | a :: as, b :: bs => by
      simp [argsBeq, termBeq_iff a b, argsBeq_iff as bs]
end

instance : DecidableEq Term := fun a b =>
  decidable_of_iff (termBeq a b = true) (termBeq_iff a b)

/-- A binding environment: the Python dict from `Var` objects to terms,
keyed by the variable's name (`Var.__eq__` identifies variables by name). -/
abbrev Env := List (String × Term)

/-- Dict lookup `bindings.get(v)`: first matching entry wins (the most
recent insertion).  Name-keyed: because `Var` lacks `__hash__`, the
program's dicts actually key `Var` objects by id, and this model
coincides with them exactly when each variable name is carried by one
`Var` object (see the header; `objEnvGet` is the general id-keyed
model). -/
def envGet : Env → String → Option Term
  | [], _ => none
  | (k, t) :: rest, v => if k = v then some t else envGet rest v

/-- Dict insertion `bindings[v] = t` (on a copy: the Python code always
copies with `dict(bindings)` before mutating).  Name-keyed, under the
same one-object-per-name regime as `envGet` (`objEnvSet` is the general
id-keyed model). -/
def envSet (bindings : Env) (v : String) (t : Term) : Env := (v, t) :: bindings

/-- The while-loop of `Var.lookup` (logic.py lines 114-130).  `binding` is
the current value, `enc` the `encountered` list (the initial `None` entry
of `encountered` is dropped: `None` is never equal to a term, so it can
never trigger the cycle check).  The loop runs while the current binding
is a variable that is a key of `bindings` and whose value has not been
encountered; each iteration appends the value to `enc`.  `none` means the
fuel ran out (shown impossible for the fuel used by `varLookup`). -/
def lookupGo (bindings : Env) : Nat → Option Term → List Term → Option (Option Term)
  | fuel, some (Term.var v), enc =>
    match envGet bindings v with
    | some next =>
      if next ∈ enc then some (some (Term.var v))
      else
        match fuel with
        | 0 => none
        | fuel' + 1 => lookupGo bindings fuel' (some next) (enc ++ [next])
    | none => some (some (Term.var v))
  | _, binding, _ => some binding

/-- `Var.lookup(self, bindings)`: chase the binding chain starting from
`bindings.get(self)` with `encountered = [self, binding]`.  The fuel
`bindings.length + 1` is sufficient (theorem `lookupGo_total`), so the
`getD` default is never used. -/
def varLookup (selfVar : String) (bindings : Env) : Option Term :=
  let b0 := envGet bindings selfVar
  (lookupGo bindings (bindings.length + 1) b0 (Term.var selfVar :: b0.toList)).getD none

/-- `Atom.unify` (logic.py lines 58-82). -/
def atomUnify (selfAtom : String) (other : Term) (bindings : Env) : Option Env :=
  match other with
  | .atom b => if selfAtom = b then some bindings else none
  | .var v =>
    match varLookup v bindings with
    | some t => if t = Term.atom selfAtom then some bindings else none
    | none => some (envSet bindings v (.atom selfAtom))
  | .rel _ _ => none

/-- `Var.unify` (logic.py lines 132-189).  The `other` is an `Atom` case
delegates to `Atom.unify`; in the `Var` case, note that when exactly one
side resolves the code binds the unresolved variable to the other
variable itself (`bindings[other] = self`), not to the resolved value. -/
def varUnify (selfVar : String) (other : Term) (bindings : Env) : Option Env :=
  match other with
  | .atom a => atomUnify a (.var selfVar) bindings
  | .var o =>
    if selfVar = o then some bindings
    else
      match varLookup selfVar bindings, varLookup o bindings with
      | none, none => some (envSet (envSet bindings selfVar (.var o)) o (.var selfVar))
      | some _, none => some (envSet bindings o (.var selfVar))
      | none, some _ => some (envSet bindings selfVar (.var o))
      | some sb, some ob =>
        if sb = ob ∨ sb = Term.var o ∨ Term.var selfVar = ob then some bindings else none
  | .rel p args =>
    match varLookup selfVar bindings with
    | some t => if t = Term.rel p args then some bindings else none
    | none => some (envSet bindings selfVar (.rel p args))

mutual
/-- Dispatching `unify`: the Python call `a.unify(b, bindings)` selects the
method by the class of `a`; `Relation.unify` (lines 216-239) checks the
predicate, then the arity, then unifies the argument lists. -/
def unify : Term → Term → Env → Option Env
  | .atom a, other, bindings => atomUnify a other bindings
  | .var v, other, bindings => varUnify v other bindings
  | .rel p as, .rel q bs, bindings =>
    if p ≠ q then none
    else if as.length ≠ bs.length then none
    else unifyArgs as bs bindings
  | .rel p as, .var v, bindings => varUnify v (.rel p as) bindings
  | .rel _ _, .atom _, _ => none
/-- The argument loop of `Relation.unify`: left to right, each step's
output environment feeding the next step's input, `False` short-circuits.
It is only called with equally long lists. -/
def unifyArgs : List Term → List Term → Env → Option Env
  | [], _, bindings => some bindings
  | _ :: _, [], _ => none
  | a :: as, b :: bs, bindings =>
    match unify a b bindings with
    | none => none
    | some bindings' => unifyArgs as bs bindings'
end

mutual
/-- `get_vars` on a term: an atom has none, a variable is itself, a
relation collects its arguments' variables in order (lines 87-88, 194-195,
253-257). -/
def termVars : Term → List String
  | .atom _ => []
  | .var v => [v]
  | .rel _ args => argsVars args
/-- Concatenated `get_vars` of a list of terms. -/
def argsVars : List Term → List String
  | [] => []
  | t :: ts => termVars t ++ argsVars ts
end

mutual
/-- `rename_vars(replacements)` on a term: a variable becomes
`replacements[self]` if present, else itself; atoms are unchanged;
relations rename their arguments (lines 84-85, 191-192, 247-251). -/
def renameTerm (repl : List (String × Term)) : Term → Term
  | .atom a => .atom a
  | .var v =>
    match envGet repl v with
    | some t => t
    | none => .var v
  | .rel p args => .rel p (renameArgs repl args)
/-- `rename_vars` mapped over an argument list. -/
def renameArgs (repl : List (String × Term)) : List Term → List Term
  | [] => []
  | t :: ts => renameTerm repl t :: renameArgs repl ts
end

/-- A clause: a head relation and a body of relations (`Clause`,
logic.py lines 260-322).  A `Fact` is a clause with empty body. -/
structure Clause where
  head : Term
  body : List Term
deriving DecidableEq

/-- Clause with empty body (`Fact`). -/
def Fact (r : Term) : Clause := ⟨r, []⟩

/-- Clause with a body (`Rule`). -/
def Rule (h : Term) (b : List Term) : Clause := ⟨h, b⟩

/-- Deduplication performed by `list(set(vars))` in `Clause.get_vars`
(line 322), one entry per variable (first occurrence kept; the set
iteration order is unspecified in Python, and no claim depends on it).
The program's set hashes the `Var` objects by id, merging only
occurrences of the same object; this per-name model coincides with it
exactly when each name is carried by one object (`objDedup` is the
general per-object model). -/
def dedup : List String → List String
  | [] => []
  | s :: rest => s :: (dedup rest).filter (fun x => x ≠ s)

/-- All variable occurrences of a clause, head first then body, before
deduplication (`Clause.get_vars` lines 318-322 before `list(set(...))`). -/
def clauseVarList (c : Clause) : List String := termVars c.head ++ argsVars c.body

/-- The name produced by `Var.get_unused_var` for counter value `n`:
`'var%d' % n` (logic.py lines 96-100). -/
def genName (n : Nat) : String := "var" ++ Nat.repr n

/-- The dict comprehension `{v: Var.get_unused_var() for v in vars}` of
`Clause.recursive_rename` (line 315): each variable in order receives the
next fresh variable, incrementing the global counter. -/
def mkRenames : List String → Nat → List (String × Term)
  | [], _ => []
  | v :: vs, ctr => (v, Term.var (genName ctr)) :: mkRenames vs (ctr + 1)

/-- `Clause.rename_vars(replacements)` (lines 306-311). -/
def clauseRename (repl : List (String × Term)) (c : Clause) : Clause :=
  ⟨renameTerm repl c.head, (c.body.map (renameTerm repl))⟩

/-- `Clause.recursive_rename` (lines 313-316), with the global counter
`Var.counter` threaded explicitly: build the replacement dict from the
deduplicated variable list and apply it, returning the new counter.
Like `dedup`, this assigns one fresh variable per name and is faithful
to the program exactly when each variable name in the clause is carried
by one `Var` object (`objRecursiveRename` is the general per-object
model). -/
def recursiveRename (c : Clause) (ctr : Nat) : Clause × Nat :=
  let vs := dedup (clauseVarList c)
  (clauseRename (mkRenames vs ctr) c, ctr + vs.length)

/-- A database value: either an ordered clause list or a host primitive
procedure (`define_primitive` stores a function).  The primitive receives
the goal's arguments and the current environment; its interaction with
the database is outside the embedded fragment. -/
inductive DbEntry where
  | cls : List Clause → DbEntry
  | prim : (List Term → Env → Option Env) → DbEntry

/-- The database: `self.clauses`, a dict from predicate name to entry
(logic.py lines 5-38), as an insertion-ordered association list. -/
structure Database where
  clauses : List (String × DbEntry)

/-- Dict lookup on the database mapping. -/
def dbGet : List (String × DbEntry) → String → Option DbEntry
  | [], _ => none
  | (k, e) :: rest, p => if k = p then some e else dbGet rest p

/-- Replace the value stored under a present key (in-place list mutation
or dict overwrite). -/
def replaceEntry : List (String × DbEntry) → String → DbEntry → List (String × DbEntry)
  | [], _, _ => []
  | (k, e) :: rest, p, e' =>
    if k = p then (k, e') :: rest else (k, e) :: replaceEntry rest p e'

/-- `Database.query(pred)` (lines 30-32): `self.clauses.setdefault(pred, [])`
returns the stored entry, inserting an empty clause list first when the
predicate is absent — a mutation of the database. -/
def dbQuery (db : Database) (pred : String) : DbEntry × Database :=
  match dbGet db.clauses pred with
  | some e => (e, db)
  | none => (.cls [], ⟨db.clauses ++ [(pred, .cls [])]⟩)

/-- `Database.store(clause)` (lines 22-25):
`self.clauses.setdefault(clause.head.pred, []).append(clause)`.
`none` models the `AttributeError` raised when the head is not a relation
or the entry under the name is a primitive (a function has no `append`). -/
def dbStore (db : Database) (c : Clause) : Option Database :=
  match c.head with
  | .rel p _ =>
    match dbGet db.clauses p with
    | some (.cls l) => some ⟨replaceEntry db.clauses p (.cls (l ++ [c]))⟩
    | some (.prim _) => none
    | none => some ⟨db.clauses ++ [(p, .cls [c])]⟩
  | _ => none

/-- `Database.define_primitive(name, fn)` (lines 27-28): dict assignment,
overwriting whatever was stored under the name. -/
def dbDefinePrimitive (db : Database) (name : String) (f : List Term → Env → Option Env) :
    Database :=
  match dbGet db.clauses name with
  | some _ => ⟨replaceEntry db.clauses name (.prim f)⟩
  | none => ⟨db.clauses ++ [(name, .prim f)]⟩

/-- Python truthiness of a `prove`/`prove_all`/`unify` result: `False` and
the empty dict are both falsy (`if not bindings`). -/
def pyFalsy : Option Env → Bool
  | none => true
  | some e => e.isEmpty

/-- The three mutually recursive activations of the prover, packaged so
that the interpreter below is structurally recursive on its fuel:
`pv` is a `prove(goal, bindings, db)` call, `pall` a
`prove_all(goals, bindings, db)` call, and `pcl` the candidate loop
`for clause in query` inside `prove` with its current loop state.
The `Nat` component is the global fresh-variable counter. -/
inductive Call where
  | pv : Term → Env → Database → Nat → Call
  | pall : List Term → Env → Database → Nat → Call
  | pcl : String → List Term → List Clause → Env → Database → Nat → Call

/-- Interpreter for `prove` / `prove_all` (logic.py lines 353-408),
faithful to the source including its truthiness tests:

* `prove`: query the database (a mutation when the predicate is absent);
  an empty clause list is falsy, so `if not query: return False`; a
  primitive is invoked directly; otherwise run the candidate loop.
* candidate loop: rename the candidate apart (incrementing the counter),
  unify the goal with the renamed head; a falsy result (failure or empty
  dict) means `continue` with the loop's current `bindings`; on success
  the loop variable `bindings` is reassigned to the unified environment
  before the body is attempted, so when the body fails the next candidate
  is tried from that extended environment, not the original one.
* `prove_all`: fold `prove` over the goals; a falsy intermediate result
  returns `False`; exhausted goals return the current environment.

`none` means the fuel ran out. -/
def run : Nat → Call → Option (Option Env × Database × Nat)
  | 0, _ => none
  | fuel + 1, .pv goal bindings db ctr =>
    match goal with
    | .rel gpred gargs =>
      match dbQuery db gpred with
      | (.cls [], db') => some (none, db', ctr)
      | (.cls (c :: cs), db') => run fuel (.pcl gpred gargs (c :: cs) bindings db' ctr)
      | (.prim f, db') => some (f gargs bindings, db', ctr)
    | _ => none
  | fuel + 1, .pall goals bindings db ctr =>
    match goals with
    | [] => some (some bindings, db, ctr)
    | g :: gs =>
      match run fuel (.pv g bindings db ctr) with
      | none => none
      | some (none, db', ctr') => some (none, db', ctr')
      | some (some e, db', ctr') =>
        if e.isEmpty then some (none, db', ctr') else run fuel (.pall gs e db' ctr')
  | fuel + 1, .pcl gpred gargs cs bindings db ctr =>
    match cs with
    | [] => some (none, db, ctr)
    | c :: rest =>
      match recursiveRename c ctr with
      | (renamed, ctr') =>
        match unify (.rel gpred gargs) renamed.head bindings with
        | none => run fuel (.pcl gpred gargs rest bindings db ctr')
        | some e =>
          if e.isEmpty then run fuel (.pcl gpred gargs rest bindings db ctr')
          else
            match renamed.body with
            | [] => some (some e, db, ctr')
            | b :: bs =>
              match run fuel (.pall (b :: bs) e db ctr') with
              | none => none
              | some (ext, db2, ctr2) =>
                if pyFalsy ext then run fuel (.pcl gpred gargs rest e db2 ctr2)
                else some (ext, db2, ctr2)

/-- `prove(goal, bindings, db)` with explicit fuel and counter. -/
def prove (fuel : Nat) (goal : Term) (bindings : Env) (db : Database) (ctr : Nat) :
    Option (Option Env × Database × Nat) :=
  run fuel (.pv goal bindings db ctr)

/-- `prove_all(goals, bindings, db)` with explicit fuel and counter. -/
def proveAll (fuel : Nat) (goals : List Term) (bindings : Env) (db : Database) (ctr : Nat) :
    Option (Option Env × Database × Nat) :=
  run fuel (.pall goals bindings db ctr)

/-- The candidate loop of `prove` on a remaining candidate list. -/
def proveClauses (fuel : Nat) (gpred : String) (gargs : List Term) (cs : List Clause)
    (bindings : Env) (db : Database) (ctr : Nat) : Option (Option Env × Database × Nat) :=
  run fuel (.pcl gpred gargs cs bindings db ctr)

/-! ### Additional definitions used by the specification statements -/

/-- Decimal digit list of a natural number, most significant first. -/
def strDigits (n : Nat) : List Char :=
  if n < 10 then [Nat.digitChar n]
  else strDigits (n / 10) ++ [Nat.digitChar (n % 10)]
termination_by n
decreasing_by
  exact Nat.div_lt_self (by omega) (by omega)

/-- Decode a decimal digit list back to the number. -/
def decodeDigits (l : List Char) : Nat :=
  l.foldl (fun acc c => acc * 10 + (c.toNat - 48)) 0

/-- A binding chain in the environment: `isChainB env v vs a` states that
`v` is bound to the first variable of `vs`, each variable of `vs` to the
next, and the last one to `Atom a` (for `vs = []`, `v` is bound to the
atom directly). -/
def isChainB (env : Env) : String → List String → String → Bool
  | v, [], a => decide (envGet env v = some (Term.atom a))
  | v, w :: ws, a => decide (envGet env v = some (Term.var w)) && isChainB env w ws a

mutual
/-- Specification-style renaming: replace every variable occurrence `v` by
`f v`, preserving the structure of the term.  The specification's
description of rename-apart ("a structurally identical clause with every
occurrence of each variable consistently replaced") is renaming by such a
function. -/
def mapVar (f : String → String) : Term → Term
  | .atom a => .atom a
  | .var v => .var (f v)
  | .rel p args => .rel p (mapVarArgs f args)
/-- `mapVar` over an argument list. -/
def mapVarArgs (f : String → String) : List Term → List Term
  | [] => []
  | t :: ts => mapVar f t :: mapVarArgs f ts
end

/-- The renaming function realised by `recursive_rename` on clause `c` with
counter value `ctr`. -/
def renameFn (c : Clause) (ctr : Nat) (v : String) : String :=
  match envGet (mkRenames (dedup (clauseVarList c)) ctr) v with
  | some (Term.var u) => u
  | _ => v

/-! ### Object-level model (Python 2 identity semantics, for C3 and C5)

`Var` defines `__eq__` (logic.py lines 111-112) but no `__hash__`, so in
Python 2 the class keeps the default id-based hash: every dict or set
keyed by `Var` objects locates entries by the stored hash — the object
id — before `__eq__` is ever consulted.  A lookup keyed by a distinct
object therefore misses, whatever the names, and a set keeps distinct
same-named objects.  Variables here carry an explicit object id; `==`
compares names only, dict and set operations match the id first. -/

/-- A term whose variables carry the identity of the `Var` object holding
them: `var name objId`.  Ids are arbitrary distinct tokens (memory
addresses in CPython). -/
inductive ObjTerm where
  | atom : String → ObjTerm
  | var : String → Nat → ObjTerm
  | rel : String → List ObjTerm → ObjTerm

mutual
/-- Python `==` on object-level terms: `Var.__eq__` compares the names
and ignores object identity. -/
def objBeq : ObjTerm → ObjTerm → Bool
  | .atom a, .atom b => a == b
  | .var a _, .var b _ => a == b
  | .rel p as, .rel q bs => p == q && objArgsBeq as bs
  | _, _ => false
/-- Pairwise `==` on argument lists of object-level terms. -/
def objArgsBeq : List ObjTerm → List ObjTerm → Bool
  | [], [] => true
  | a :: as, b :: bs => objBeq a b && objArgsBeq as bs
  | _, _ => false
end

/-- List membership via `==` (the `not in encountered` test of
`Var.lookup`). -/
def objMemB (t : ObjTerm) : List ObjTerm → Bool
  | [] => false
  | u :: rest => objBeq t u || objMemB t rest

/-- A binding environment at object level: the dict keys are the `Var`
objects, `(name, objId)` pairs. -/
abbrev ObjEnv := List ((String × Nat) × ObjTerm)

/-- Dict lookup keyed by a `Var` object: the stored hash (the id) must
match before `__eq__` (the name) is consulted, so a lookup keyed by a
distinct object never finds the entry, whatever the names. -/
def objEnvGet : ObjEnv → String × Nat → Option ObjTerm
  | [], _ => none
  | (k, t) :: rest, v =>
    if k.2 = v.2 ∧ k.1 = v.1 then some t else objEnvGet rest v

/-- Dict insertion `bindings[v] = t` keyed by the `Var` object. -/
def objEnvSet (bindings : ObjEnv) (v : String × Nat) (t : ObjTerm) : ObjEnv :=
  (v, t) :: bindings

/-- The while-loop of `Var.lookup` at object level: `binding in bindings`
is the id-keyed dict containment, `not in encountered` is list
membership by `==`. -/
def objLookupGo (bindings : ObjEnv) :
    Nat → Option ObjTerm → List ObjTerm → Option (Option ObjTerm)
  | fuel, some (ObjTerm.var nm oid), enc =>
    match objEnvGet bindings (nm, oid) with
    | some next =>
      if objMemB next enc then some (some (ObjTerm.var nm oid))
      else
        match fuel with
        | 0 => none
        | fuel' + 1 => objLookupGo bindings fuel' (some next) (enc ++ [next])
    | none => some (some (ObjTerm.var nm oid))
  | _, binding, _ => some binding

/-- `Var.lookup(self, bindings)` at object level; the fuel argument is
sufficient by the same visited-list bound as for `varLookup`. -/
def objVarLookup (v : String × Nat) (bindings : ObjEnv) : Option ObjTerm :=
  let b0 := objEnvGet bindings v
  (objLookupGo bindings (bindings.length + 1) b0
    (ObjTerm.var v.1 v.2 :: b0.toList)).getD none

mutual
/-- `get_vars` at object level: the variable objects of the term, in
order. -/
def objTermVars : ObjTerm → List (String × Nat)
  | .atom _ => []
  | .var nm oid => [(nm, oid)]
  | .rel _ args => objArgsVars args
/-- Concatenated `get_vars` of an argument list at object level. -/
def objArgsVars : List ObjTerm → List (String × Nat)
  | [] => []
  | t :: ts => objTermVars t ++ objArgsVars ts
end

/-- A clause at object level. -/
structure ObjClause where
  head : ObjTerm
  body : List ObjTerm

/-- All variable objects of a clause, head first then body, before
deduplication. -/
def objClauseVarList (c : ObjClause) : List (String × Nat) :=
  objTermVars c.head ++ objArgsVars c.body

/-- `list(set(vars))` at object level: the set hashes `Var` objects by
id, so entries merge only when they are the same object; distinct
objects with equal names are both kept. -/
def objDedup : List (String × Nat) → List (String × Nat)
  | [] => []
  | v :: rest => v :: (objDedup rest).filter (fun w => w ≠ v)

/-- The renames comprehension of `recursive_rename` at object level: one
fresh `Var` object per set element, that is per source object.  A fresh
variable is a newly allocated object; its id is modelled by its counter
value (any distinct tokens would do). -/
def objMkRenames : List (String × Nat) → Nat → ObjEnv
  | [], _ => []
  | v :: vs, ctr => (v, ObjTerm.var (genName ctr) ctr) :: objMkRenames vs (ctr + 1)

mutual
/-- `rename_vars(replacements)` at object level: `self in replacements`
and `replacements[self]` are id-keyed dict operations. -/
def objRenameTerm (repl : ObjEnv) : ObjTerm → ObjTerm
  | .atom a => .atom a
  | .var nm oid =>
    match objEnvGet repl (nm, oid) with
    | some t => t
    | none => .var nm oid
  | .rel p args => .rel p (objRenameArgs repl args)
/-- `rename_vars` mapped over an argument list at object level. -/
def objRenameArgs (repl : ObjEnv) : List ObjTerm → List ObjTerm
  | [] => []
  | t :: ts => objRenameTerm repl t :: objRenameArgs repl ts
end

/-- `Clause.recursive_rename` at object level. -/
def objRecursiveRename (c : ObjClause) (ctr : Nat) : ObjClause × Nat :=
  let vs := objDedup (objClauseVarList c)
  (⟨objRenameTerm (objMkRenames vs ctr) c.head,
    c.body.map (objRenameTerm (objMkRenames vs ctr))⟩, ctr + vs.length)

/-! ### Injectivity of the generated variable names

`Var.get_unused_var` produces `'var%d' % counter`; distinct counter values
give distinct names because decimal rendering is injective.  `Nat.repr` is
shown injective by exhibiting a decoder. -/


theorem toDigitsCore_eq_strDigits :
    ∀ fuel n acc, n < fuel → Nat.toDigitsCore 10 fuel n acc = strDigits n ++ acc := by
  intro fuel
  induction fuel with
  | zero => intro n acc h; omega
  | succ f ih =>
    intro n acc h
    by_cases h10 : n < 10
    · have hz : n / 10 = 0 := Nat.div_eq_of_lt h10
      rw [Nat.toDigitsCore, hz]
      simp [strDigits, h10, Nat.mod_eq_of_lt h10]
    · have hnz : ¬ n / 10 = 0 := by omega
      rw [Nat.toDigitsCore]
      simp only [hnz, if_false]
      have hdiv : n / 10 < f := by omega
      rw [ih (n / 10) (Nat.digitChar (n % 10) :: acc) hdiv]
      have hs : strDigits n = strDigits (n / 10) ++ [Nat.digitChar (n % 10)] := by
        rw [strDigits]
        simp [h10]
      rw [hs, List.append_assoc]
      rfl


theorem digitChar_toNat (d : Nat) (h : d < 10) : (Nat.digitChar d).toNat = 48 + d := by
  interval_cases d <;> rfl

theorem decodeDigits_append (l : List Char) (c : Char) :
    decodeDigits (l ++ [c]) = decodeDigits l * 10 + (c.toNat - 48) := by
  simp [decodeDigits, List.foldl_append]

theorem decode_strDigits (n : Nat) : decodeDigits (strDigits n) = n := by
  by_cases h : n < 10
  · rw [strDigits]
    simp [h, decodeDigits, digitChar_toNat n h]
  · have hd : n / 10 < n := Nat.div_lt_self (by omega) (by omega)
    have ih := decode_strDigits (n / 10)
    rw [strDigits]
    simp only [h, if_false]
    rw [decodeDigits_append, ih, digitChar_toNat (n % 10) (Nat.mod_lt n (by omega))]
    omega
termination_by n

theorem repr_eq_strDigits (n : Nat) : Nat.repr n = (strDigits n).asString := by
  show (Nat.toDigits 10 n).asString = (strDigits n).asString
  rw [Nat.toDigits, toDigitsCore_eq_strDigits (n + 1) n [] (by omega)]
  simp

theorem natRepr_inj {m n : Nat} (h : Nat.repr m = Nat.repr n) : m = n := by
  rw [repr_eq_strDigits, repr_eq_strDigits] at h
  have hdata : strDigits m = strDigits n := by
    have := congrArg String.data h
    simpa [List.asString] using this
  have := congrArg decodeDigits hdata
  rwa [decode_strDigits, decode_strDigits] at this

theorem genName_inj {m n : Nat} (h : genName m = genName n) : m = n := by
  apply natRepr_inj
  have hdata := congrArg String.data h
  simp only [genName, String.data_append] at hdata
  have h2 : (Nat.repr m).data = (Nat.repr n).data :=
    List.append_cancel_left hdata
  cases hm : Nat.repr m
  cases hn : Nat.repr n
  rw [hm, hn] at h2
  simp_all

/-! ### Termination of `Var.lookup` (infrastructure for C6 and C7) -/

theorem envGet_val_mem : ∀ {env : Env} {v : String} {t : Term},
    envGet env v = some t → t ∈ env.map Prod.snd := by
  intro env
  induction env with
  | nil => intro v t h; simp [envGet] at h
  | cons p rest ih =>
    intro v t h
    rw [envGet] at h
    by_cases hk : p.1 = v
    · simp [hk] at h
      simp [← h]
    · simp [hk] at h
      simp [ih h]

theorem envGet_key_mem : ∀ {env : Env} {v : String} {t : Term},
    envGet env v = some t → v ∈ env.map Prod.fst := by
  intro env
  induction env with
  | nil => intro v t h; simp [envGet] at h
  | cons p rest ih =>
    intro v t h
    rw [envGet] at h
    by_cases hk : p.1 = v
    · simp [hk]
    · simp [hk] at h
      simp [ih h]

theorem length_filter_le_filter {α : Type} (l : List α) (p q : α → Bool)
    (himp : ∀ t, q t = true → p t = true) :
    (l.filter q).length ≤ (l.filter p).length := by
  induction l with
  | nil => simp
  | cons a l ih =>
    by_cases hq : q a = true
    · rw [List.filter_cons_of_pos hq, List.filter_cons_of_pos (himp a hq)]
      simpa using ih
    · rw [List.filter_cons_of_neg (by simp_all)]
      by_cases hp : p a = true
      · rw [List.filter_cons_of_pos hp]
        calc (l.filter q).length ≤ (l.filter p).length := ih
          _ ≤ (l.filter p).length + 1 := by omega
      · rw [List.filter_cons_of_neg (by simp_all)]
        exact ih

theorem length_filter_lt_filter {α : Type} (l : List α) (p q : α → Bool) (x : α)
    (hx : x ∈ l) (hpx : p x = true) (hqx : q x = false)
    (himp : ∀ t, q t = true → p t = true) :
    (l.filter q).length < (l.filter p).length := by
  induction l with
  | nil => simp at hx
  | cons a l ih =>
    by_cases hax : a = x
    · subst hax
      rw [List.filter_cons_of_pos hpx, List.filter_cons_of_neg (by simp [hqx])]
      have := length_filter_le_filter l p q himp
      simpa using Nat.lt_succ_of_le this
    · have hxl : x ∈ l := by
        rcases List.mem_cons.mp hx with h | h
        · exact absurd h.symm hax
        · exact h
      by_cases hq : q a = true
      · rw [List.filter_cons_of_pos hq, List.filter_cons_of_pos (himp a hq)]
        simpa using ih hxl
      · rw [List.filter_cons_of_neg (by simp_all)]
        by_cases hp : p a = true
        · rw [List.filter_cons_of_pos hp]
          calc (l.filter q).length < (l.filter p).length := ih hxl
            _ ≤ (l.filter p).length + 1 := by omega
        · rw [List.filter_cons_of_neg (by simp_all)]
          exact ih hxl

theorem lookupGo_total (env : Env) :
    ∀ (fuel : Nat) (b : Option Term) (enc : List Term),
      ((env.map Prod.snd).filter (fun t => decide (¬ t ∈ enc))).length < fuel →
      (lookupGo env fuel b enc).isSome = true := by
  intro fuel
  induction fuel with
  | zero => intro b enc h; omega
  | succ f ih =>
    intro b enc h
    match b with
    | none => simp [lookupGo]
    | some (Term.atom a) => simp [lookupGo]
    | some (Term.rel p args) => simp [lookupGo]
    | some (Term.var v) =>
      rw [lookupGo]
      match hg : envGet env v with
      | none => simp
      | some next =>
        by_cases hmem : next ∈ enc
        · simp [hmem]
        · simp only [hmem, if_false]
          have hval : next ∈ env.map Prod.snd := envGet_val_mem hg
          have hstrict := length_filter_lt_filter (env.map Prod.snd)
            (fun t => decide (¬ t ∈ enc)) (fun t => decide (¬ t ∈ enc ++ [next])) next
            hval (by simpa using hmem) (by simp)
            (by intro t ht; simp at ht; simp [ht.1])
          have hlt : ((env.map Prod.snd).filter
              (fun t => decide (¬ t ∈ enc ++ [next]))).length < f := by omega
          exact ih (some next) (enc ++ [next]) hlt

theorem varLookup_spec (env : Env) (x : String) :
    lookupGo env (env.length + 1) (envGet env x) (Term.var x :: (envGet env x).toList)
      = some (varLookup x env) := by
  have htot := lookupGo_total env (env.length + 1) (envGet env x)
    (Term.var x :: (envGet env x).toList)
    (by
      have h1 := List.length_filter_le
        (fun t => decide (¬ t ∈ Term.var x :: (envGet env x).toList)) (env.map Prod.snd)
      rw [List.length_map] at h1
      omega)
  match hm : lookupGo env (env.length + 1) (envGet env x)
      (Term.var x :: (envGet env x).toList) with
  | some r => simp [varLookup, hm]
  | none => rw [hm] at htot; simp at htot

/-! ### Resolution of transitive binding chains (infrastructure for C7) -/


theorem isChainB_bound (env : Env) :
    ∀ (vs : List String) (v a : String), isChainB env v vs a = true →
      ∀ u ∈ v :: vs, ∃ t, envGet env u = some t := by
  intro vs
  induction vs with
  | nil =>
    intro v a hch u hu
    have hg : envGet env v = some (Term.atom a) := by simpa [isChainB] using hch
    rcases List.mem_cons.mp hu with h | h
    · exact ⟨_, h ▸ hg⟩
    · simp at h
  | cons w ws ih =>
    intro v a hch u hu
    rw [isChainB] at hch
    have hg : envGet env v = some (Term.var w) := by
      have := (Bool.and_eq_true _ _).mp hch
      simpa using this.1
    have hch2 : isChainB env w ws a = true := ((Bool.and_eq_true _ _).mp hch).2
    rcases List.mem_cons.mp hu with h | h
    · exact ⟨_, h ▸ hg⟩
    · exact ih w a hch2 u h

theorem lookupGo_chain (env : Env) :
    ∀ (vs : List String) (v a : String) (enc : List Term) (fuel : Nat),
      vs.length < fuel →
      isChainB env v vs a = true →
      vs.Nodup →
      (∀ u ∈ vs, ¬ Term.var u ∈ enc) →
      ¬ Term.atom a ∈ enc →
      lookupGo env fuel (some (Term.var v)) enc = some (some (Term.atom a)) := by
  intro vs
  induction vs with
  | nil =>
    intro v a enc fuel hf hch hnd henc hatom
    have hg : envGet env v = some (Term.atom a) := by simpa [isChainB] using hch
    rw [lookupGo]
    simp only [hg]
    rw [if_neg hatom]
    match fuel, hf with
    | f + 1, _ => simp [lookupGo]
  | cons w ws ih =>
    intro v a enc fuel hf hch hnd henc hatom
    rw [isChainB] at hch
    have hg : envGet env v = some (Term.var w) := by
      have := (Bool.and_eq_true _ _).mp hch
      simpa using this.1
    have hch2 : isChainB env w ws a = true := ((Bool.and_eq_true _ _).mp hch).2
    rw [lookupGo]
    simp only [hg]
    have hwenc : ¬ Term.var w ∈ enc := henc w (by simp)
    rw [if_neg hwenc]
    match fuel, hf with
    | f + 1, hf =>
      apply ih w a (enc ++ [Term.var w]) f (by simp at hf ⊢; omega) hch2
        (List.Nodup.of_cons hnd)
      · intro u hu
        have hne : u ≠ w := by
          intro hc
          exact (List.nodup_cons.mp hnd).1 (hc ▸ hu)
        simp only [List.mem_append, List.mem_singleton]
        rintro (hc | hc)
        · exact henc u (by simp [hu]) hc
        · exact hne (by injection hc)
      · simp only [List.mem_append, List.mem_singleton]
        rintro (hc | hc)
        · exact hatom hc
        · injection hc

theorem varLookup_chain (env : Env) (v : String) (vs : List String) (a : String)
    (hch : isChainB env v vs a = true) (hnd : (v :: vs).Nodup) :
    varLookup v env = some (Term.atom a) := by
  match vs, hch, hnd with
  | [], hch, hnd =>
    have hg : envGet env v = some (Term.atom a) := by simpa [isChainB] using hch
    simp [varLookup, hg, lookupGo]
  | w :: ws, hch, hnd =>
    rw [isChainB] at hch
    have hg : envGet env v = some (Term.var w) := by
      have := (Bool.and_eq_true _ _).mp hch
      simpa using this.1
    have hch2 : isChainB env w ws a = true := ((Bool.and_eq_true _ _).mp hch).2
    have hsub : ws ⊆ env.map Prod.fst := by
      intro u hu
      rcases isChainB_bound env ws w a hch2 u (by simp [hu]) with ⟨t, ht⟩
      exact envGet_key_mem ht
    have hlen : ws.length ≤ env.length := by
      have h1 := (List.subperm_of_subset
        (List.Nodup.of_cons (List.Nodup.of_cons hnd)) hsub).length_le
      rwa [List.length_map] at h1
    have henc : ∀ u ∈ ws, ¬ Term.var u ∈ [Term.var v, Term.var w] := by
      intro u hu
      have hvne : u ≠ v := by
        intro hc
        exact (List.nodup_cons.mp hnd).1 (hc ▸ by simp [hu])
      have hwne : u ≠ w := by
        intro hc
        exact (List.nodup_cons.mp (List.Nodup.of_cons hnd)).1 (hc ▸ hu)
      simp only [List.mem_cons, List.mem_singleton]
      rintro (hc | hc | hc)
      · exact hvne (by injection hc)
      · exact hwne (by injection hc)
      · simp at hc
    have hchain := lookupGo_chain env ws w a [Term.var v, Term.var w] (env.length + 1)
      (by omega) hch2 (List.Nodup.of_cons (List.Nodup.of_cons hnd)) henc (by simp)
    have hspec := varLookup_spec env v
    rw [hg] at hspec
    have : (Option.toList (some (Term.var w))) = [Term.var w] := rfl
    rw [this] at hspec
    have heq : ([Term.var v, Term.var w] : List Term) = Term.var v :: [Term.var w] := rfl
    rw [heq] at hchain
    rw [hchain] at hspec
    injection hspec with h
    exact h.symm

/-! ### Rename-apart in the one-object-per-name regime

Properties of the name-keyed `recursive_rename` model: renaming is a
single consistent function on names, fresh names come from the consumed
counter range, and the ranges of successive calls are disjoint.  (C5
itself is settled against the object-level model above, where the
program's per-object keying is observable.) -/


theorem mapVarArgs_eq_map (f : String → String) :
    ∀ ts : List Term, mapVarArgs f ts = ts.map (mapVar f) := by
  intro ts
  induction ts with
  | nil => simp [mapVarArgs]
  | cons t ts ih => simp [mapVarArgs, ih]

mutual
theorem renameTerm_eq_mapVar (repl : List (String × Term)) (f : String → String)
    (hag : ∀ v, envGet repl v = some (Term.var (f v)) ∨ (envGet repl v = none ∧ f v = v)) :
    ∀ t, renameTerm repl t = mapVar f t
  | .atom a => by simp [renameTerm, mapVar]
  | .var v => by
      rcases hag v with h | ⟨h1, h2⟩
      · simp [renameTerm, mapVar, h]
      · simp [renameTerm, mapVar, h1, h2]
  | .rel p args => by
      rw [renameTerm, mapVar, renameArgs_eq_mapVarArgs repl f hag args]
theorem renameArgs_eq_mapVarArgs (repl : List (String × Term)) (f : String → String)
    (hag : ∀ v, envGet repl v = some (Term.var (f v)) ∨ (envGet repl v = none ∧ f v = v)) :
    ∀ ts, renameArgs repl ts = mapVarArgs f ts
  | [] => by rw [renameArgs, mapVarArgs]
  | t :: ts => by
      rw [renameArgs, mapVarArgs, renameTerm_eq_mapVar repl f hag t,
        renameArgs_eq_mapVarArgs repl f hag ts]
end

mutual
theorem termVars_mapVar (f : String → String) :
    ∀ t, termVars (mapVar f t) = (termVars t).map f
  | .atom a => by simp [mapVar, termVars]
  | .var v => by simp [mapVar, termVars]
  | .rel p args => by simp [mapVar, termVars, argsVars_mapVarArgs f args]
theorem argsVars_mapVarArgs (f : String → String) :
    ∀ ts, argsVars (mapVarArgs f ts) = (argsVars ts).map f
  | [] => by simp [mapVarArgs, argsVars]
  | t :: ts => by
      simp [mapVarArgs, argsVars, termVars_mapVar f t, argsVars_mapVarArgs f ts]
end

theorem mem_dedup : ∀ (l : List String) (v : String), v ∈ dedup l ↔ v ∈ l := by
  intro l
  induction l with
  | nil => simp [dedup]
  | cons s rest ih =>
    intro v
    rw [dedup]
    simp only [List.mem_cons, List.mem_filter]
    constructor
    · rintro (h | ⟨h1, _⟩)
      · exact Or.inl h
      · exact Or.inr ((ih v).mp h1)
    · rintro (h | h)
      · exact Or.inl h
      · by_cases hv : v = s
        · exact Or.inl hv
        · exact Or.inr ⟨(ih v).mpr h, by simpa using hv⟩

theorem dedup_nodup : ∀ l : List String, (dedup l).Nodup := by
  intro l
  induction l with
  | nil => simp [dedup]
  | cons s rest ih =>
    rw [dedup]
    refine List.nodup_cons.mpr ⟨?_, List.Nodup.filter _ ih⟩
    intro hc
    exact (by simpa using (List.mem_filter.mp hc).2 : ¬ s = s) rfl

theorem mkRenames_get_mem :
    ∀ (vs : List String) (ctr : Nat) (v : String), v ∈ vs →
      ∃ i, ctr ≤ i ∧ i < ctr + vs.length ∧
        envGet (mkRenames vs ctr) v = some (Term.var (genName i)) := by
  intro vs
  induction vs with
  | nil => intro ctr v h; simp at h
  | cons w ws ih =>
    intro ctr v hv
    rw [mkRenames]
    by_cases hw : w = v
    · exact ⟨ctr, by omega, by simp, by simp [envGet, hw]⟩
    · have hv2 : v ∈ ws := by
        rcases List.mem_cons.mp hv with h | h
        · exact absurd h.symm hw
        · exact h
      rcases ih (ctr + 1) v hv2 with ⟨i, h1, h2, h3⟩
      exact ⟨i, by omega, by simp; omega, by simp [envGet, hw, h3]⟩

theorem mkRenames_get_notMem :
    ∀ (vs : List String) (ctr : Nat) (v : String), ¬ v ∈ vs →
      envGet (mkRenames vs ctr) v = none := by
  intro vs
  induction vs with
  | nil => intro ctr v h; simp [mkRenames, envGet]
  | cons w ws ih =>
    intro ctr v hv
    rw [mkRenames, envGet]
    have hw : ¬ w = v := fun hc => hv (by simp [hc])
    simp only [hw, if_false]
    exact ih (ctr + 1) v (fun hc => hv (by simp [hc]))

theorem mkRenames_inj :
    ∀ (vs : List String) (ctr : Nat), vs.Nodup →
      ∀ v w, v ∈ vs → w ∈ vs → v ≠ w →
        ∀ i j, envGet (mkRenames vs ctr) v = some (Term.var (genName i)) →
          envGet (mkRenames vs ctr) w = some (Term.var (genName j)) → i ≠ j := by
  intro vs
  induction vs with
  | nil => intro ctr _ v w hv; simp at hv
  | cons u ws ih =>
    intro ctr hnd v w hv hw hvw i j hi hj
    rw [mkRenames, envGet] at hi hj
    by_cases huv : u = v
    · have huw : ¬ u = w := fun hc => hvw (huv ▸ hc ▸ rfl)
      simp only [huv, if_true] at hi
      simp only [huw, if_false] at hj
      have hwws : w ∈ ws := by
        rcases List.mem_cons.mp hw with h | h
        · exact absurd h.symm huw
        · exact h
      rcases mkRenames_get_mem ws (ctr + 1) w hwws with ⟨j2, hj1, _, hj3⟩
      rw [hj3] at hj
      have : genName j = genName j2 := by
        injection hj with h
        injection h with h2
        rw [h2]
      have hjj : j = j2 := genName_inj this
      have : genName i = genName ctr := by
        injection hi with h
        injection h with h2
        rw [h2]
      have hii : i = ctr := genName_inj this
      omega
    · simp only [huv, if_false] at hi
      by_cases huw : u = w
      · simp only [huw, if_true] at hj
        have hvws : v ∈ ws := by
          rcases List.mem_cons.mp hv with h | h
          · exact absurd h.symm huv
          · exact h
        rcases mkRenames_get_mem ws (ctr + 1) v hvws with ⟨i2, hi1, _, hi3⟩
        rw [hi3] at hi
        have : genName i = genName i2 := by
          injection hi with h
          injection h with h2
          rw [h2]
        have hii : i = i2 := genName_inj this
        have : genName j = genName ctr := by
          injection hj with h
          injection h with h2
          rw [h2]
        have hjj : j = ctr := genName_inj this
        omega
      · simp only [huw, if_false] at hj
        have hvws : v ∈ ws := by
          rcases List.mem_cons.mp hv with h | h
          · exact absurd h.symm huv
          · exact h
        have hwws : w ∈ ws := by
          rcases List.mem_cons.mp hw with h | h
          · exact absurd h.symm huw
          · exact h
        exact ih (ctr + 1) (List.Nodup.of_cons hnd) v w hvws hwws hvw i j hi hj


theorem renameFn_agree (c : Clause) (ctr : Nat) :
    ∀ v, envGet (mkRenames (dedup (clauseVarList c)) ctr) v
            = some (Term.var (renameFn c ctr v)) ∨
         (envGet (mkRenames (dedup (clauseVarList c)) ctr) v = none ∧ renameFn c ctr v = v) := by
  intro v
  by_cases hv : v ∈ dedup (clauseVarList c)
  · rcases mkRenames_get_mem _ ctr v hv with ⟨i, _, _, h3⟩
    left
    rw [h3, renameFn, h3]
  · right
    have h := mkRenames_get_notMem _ ctr v hv
    exact ⟨h, by rw [renameFn, h]⟩

theorem recursiveRename_head (c : Clause) (ctr : Nat) :
    (recursiveRename c ctr).1.head = mapVar (renameFn c ctr) c.head := by
  rw [recursiveRename]
  exact renameTerm_eq_mapVar _ _ (renameFn_agree c ctr) c.head

theorem recursiveRename_body (c : Clause) (ctr : Nat) :
    (recursiveRename c ctr).1.body = c.body.map (mapVar (renameFn c ctr)) := by
  rw [recursiveRename]
  show c.body.map (renameTerm _) = _
  apply List.map_congr_left
  intro t _
  exact renameTerm_eq_mapVar _ _ (renameFn_agree c ctr) t

theorem recursiveRename_ctr (c : Clause) (ctr : Nat) :
    (recursiveRename c ctr).2 = ctr + (dedup (clauseVarList c)).length := rfl

theorem renameFn_fresh (c : Clause) (ctr : Nat) :
    ∀ v ∈ clauseVarList c, ∃ i, ctr ≤ i ∧ i < (recursiveRename c ctr).2 ∧
      renameFn c ctr v = genName i := by
  intro v hv
  have hvd : v ∈ dedup (clauseVarList c) := (mem_dedup _ v).mpr hv
  rcases mkRenames_get_mem _ ctr v hvd with ⟨i, h1, h2, h3⟩
  exact ⟨i, h1, by rw [recursiveRename_ctr]; omega, by rw [renameFn, h3]⟩

theorem renameFn_inj (c : Clause) (ctr : Nat) :
    ∀ v w, v ∈ clauseVarList c → w ∈ clauseVarList c → v ≠ w →
      renameFn c ctr v ≠ renameFn c ctr w := by
  intro v w hv hw hvw
  have hvd : v ∈ dedup (clauseVarList c) := (mem_dedup _ v).mpr hv
  have hwd : w ∈ dedup (clauseVarList c) := (mem_dedup _ w).mpr hw
  rcases mkRenames_get_mem _ ctr v hvd with ⟨i, _, _, hi3⟩
  rcases mkRenames_get_mem _ ctr w hwd with ⟨j, _, _, hj3⟩
  have hij : i ≠ j := mkRenames_inj _ ctr (dedup_nodup _) v w hvd hwd hvw i j hi3 hj3
  have hfv : renameFn c ctr v = genName i := by
    rw [renameFn]
    simp only [hi3]
  have hfw : renameFn c ctr w = genName j := by
    rw [renameFn]
    simp only [hj3]
  rw [hfv, hfw]
  intro hc
  exact hij (genName_inj hc)

theorem argsVars_map_mapVar (f : String → String) (ts : List Term) :
    argsVars (ts.map (mapVar f)) = (argsVars ts).map f := by
  rw [← mapVarArgs_eq_map]
  exact argsVars_mapVarArgs f ts

theorem clauseVarList_renamed (c : Clause) (ctr : Nat) :
    clauseVarList (recursiveRename c ctr).1 = (clauseVarList c).map (renameFn c ctr) := by
  rw [clauseVarList, recursiveRename_head, recursiveRename_body, termVars_mapVar,
    clauseVarList, List.map_append, argsVars_map_mapVar]

theorem renamed_vars_fresh (c : Clause) (ctr : Nat) :
    ∀ u ∈ clauseVarList (recursiveRename c ctr).1,
      ∃ i, ctr ≤ i ∧ i < (recursiveRename c ctr).2 ∧ u = genName i := by
  intro u hu
  rw [clauseVarList_renamed] at hu
  rcases List.mem_map.mp hu with ⟨v, hv, hvu⟩
  rcases renameFn_fresh c ctr v hv with ⟨i, h1, h2, h3⟩
  exact ⟨i, h1, h2, by rw [← hvu, h3]⟩

theorem renamed_vars_disjoint (c c2 : Clause) (ctr d : Nat)
    (hd : (recursiveRename c ctr).2 ≤ d) :
    ∀ u, u ∈ clauseVarList (recursiveRename c ctr).1 →
      ¬ u ∈ clauseVarList (recursiveRename c2 d).1 := by
  intro u hu hu2
  rcases renamed_vars_fresh c ctr u hu with ⟨i, hi1, hi2, hi3⟩
  rcases renamed_vars_fresh c2 d u hu2 with ⟨j, hj1, hj2, hj3⟩
  have : i = j := genName_inj (by rw [← hi3, ← hj3])
  omega

/-! ### Database and prover lemmas (infrastructure for C9 and C10) -/

theorem dbGet_append_of_none :
    ∀ (l l2 : List (String × DbEntry)) (p : String),
      dbGet l p = none → dbGet (l ++ l2) p = dbGet l2 p := by
  intro l
  induction l with
  | nil => intro l2 p _; rfl
  | cons kv rest ih =>
    intro l2 p h
    rw [dbGet] at h
    by_cases hk : kv.1 = p
    · simp [hk] at h
    · simp only [hk, if_false] at h
      show dbGet ((kv.1, kv.2) :: (rest ++ l2)) p = dbGet l2 p
      rw [dbGet]
      simp only [hk, if_false]
      exact ih l2 p h

theorem dbGet_append_single_ne :
    ∀ (l : List (String × DbEntry)) (p q : String) (e : DbEntry), q ≠ p →
      dbGet (l ++ [(p, e)]) q = dbGet l q := by
  intro l
  induction l with
  | nil =>
    intro p q e hne
    show dbGet [(p, e)] q = dbGet [] q
    have hpq : ¬ p = q := fun hc => hne hc.symm
    simp [dbGet, hpq]
  | cons kv rest ih =>
    intro p q e hne
    show dbGet ((kv.1, kv.2) :: (rest ++ [(p, e)])) q = dbGet ((kv.1, kv.2) :: rest) q
    rw [dbGet, dbGet]
    by_cases hk : kv.1 = q
    · simp [hk]
    · simp only [hk, if_false]
      exact ih p q e hne

theorem dbGet_replaceEntry_self :
    ∀ (l : List (String × DbEntry)) (p : String) (e0 e1 : DbEntry),
      dbGet l p = some e0 → dbGet (replaceEntry l p e1) p = some e1 := by
  intro l
  induction l with
  | nil => intro p e0 e1 h; simp [dbGet] at h
  | cons kv rest ih =>
    intro p e0 e1 h
    rw [dbGet] at h
    rw [replaceEntry]
    by_cases hk : kv.1 = p
    · simp only [hk, if_true]
      rw [dbGet]
      simp [hk]
    · simp only [hk, if_false] at h
      simp only [hk, if_false]
      rw [dbGet]
      simp only [hk, if_false]
      exact ih p e0 e1 h

theorem dbGet_replaceEntry_ne :
    ∀ (l : List (String × DbEntry)) (p q : String) (e1 : DbEntry), q ≠ p →
      dbGet (replaceEntry l p e1) q = dbGet l q := by
  intro l
  induction l with
  | nil => intro p q e1 _; rfl
  | cons kv rest ih =>
    intro p q e1 hne
    rw [replaceEntry]
    by_cases hk : kv.1 = p
    · simp only [hk, if_true]
      rw [dbGet, dbGet]
      have : ¬ p = q := fun hc => hne hc.symm
      simp only [hk, this, if_false]
    · simp only [hk, if_false]
      rw [dbGet, dbGet]
      by_cases hq : kv.1 = q
      · simp [hq]
      · simp only [hq, if_false]
        exact ih p q e1 hne

theorem proveClauses_nil (f : Nat) (gp : String) (gargs : List Term) (env : Env)
    (db : Database) (ctr : Nat) :
    proveClauses f gp gargs [] env db ctr = none ∨
      proveClauses f gp gargs [] env db ctr = some (none, db, ctr) := by
  match f with
  | 0 => exact Or.inl rfl
  | f + 1 => exact Or.inr rfl

theorem proveClauses_first_win (fuel : Nat) (gp : String) (gargs : List Term) (c1 : Clause)
    (rest : List Clause) (env e : Env) (db db' : Database) (ctr ctr' : Nat)
    (h : proveClauses fuel gp gargs [c1] env db ctr = some (some e, db', ctr')) :
    proveClauses fuel gp gargs (c1 :: rest) env db ctr = some (some e, db', ctr') := by
  match fuel with
  | 0 => exact absurd h (by simp [proveClauses, run])
  | f + 1 =>
    rw [proveClauses, run] at h
    rw [proveClauses, run]
    simp only at h ⊢
    cases hu : unify (.rel gp gargs) (recursiveRename c1 ctr).1.head env with
    | none =>
      simp only [hu] at h
      rcases proveClauses_nil f gp gargs env db (recursiveRename c1 ctr).2 with h2 | h2 <;>
        rw [proveClauses] at h2 <;> rw [h2] at h <;> simp at h
    | some u =>
      simp only [hu] at h ⊢
      by_cases hue : List.isEmpty u = true
      · simp only [if_pos hue] at h
        rcases proveClauses_nil f gp gargs env db (recursiveRename c1 ctr).2 with h2 | h2 <;>
          rw [proveClauses] at h2 <;> rw [h2] at h <;> simp at h
      · simp only [if_neg hue] at h ⊢
        cases hb : (recursiveRename c1 ctr).1.body with
        | nil =>
          simp only [hb] at h ⊢
          exact h
        | cons b bs =>
          simp only [hb] at h ⊢
          cases hp : run f (.pall (b :: bs) u db (recursiveRename c1 ctr).2) with
          | none =>
            simp only [hp] at h
            simp at h
          | some res =>
            obtain ⟨ext, db2, ctr2⟩ := res
            simp only [hp] at h ⊢
            by_cases hext : pyFalsy ext = true
            · simp only [if_pos hext] at h
              rcases proveClauses_nil f gp gargs u db2 ctr2 with h2 | h2 <;>
                rw [proveClauses] at h2 <;> rw [h2] at h <;> simp at h
            · simp only [if_neg hext] at h ⊢
              exact h

theorem prove_dispatch (fuel : Nat) (gp : String) (gargs : List Term) (env : Env)
    (db : Database) (ctr : Nat) (cs : List Clause) (c : Clause)
    (h : dbGet db.clauses gp = some (.cls (c :: cs))) :
    prove (fuel + 1) (.rel gp gargs) env db ctr = proveClauses fuel gp gargs (c :: cs) env db ctr := by
  rw [prove, run, proveClauses]
  simp only [dbQuery, h]

theorem prove_missing (fuel : Nat) (name : String) (args : List Term) (env : Env)
    (db : Database) (ctr : Nat) (h : dbGet db.clauses name = none) :
    prove (fuel + 1) (.rel name args) env db ctr
      = some (none, ⟨db.clauses ++ [(name, .cls [])]⟩, ctr) := by
  rw [prove, run]
  simp only [dbQuery, h]

/-! ### The claims -/

/-- C1 (code bug): the claim states that when a candidate clause fails —
head unification failure or body failure — the next candidate is tried
from the original environment, with no binding extension from the failed
attempt visible.  The code violates the body-failure half: `prove`
reassigns its loop variable `bindings` to the head-unification result
(logic.py line 393) before attempting the body, and on body failure
`continue`s with that extended environment.  Evaluated at the failing
input: goal `p(X)`, database `p(a) <= q(b).  p(b).` (no `q` clauses).
The first candidate binds `X := a`, its body `q(b)` fails, and the second
candidate `p(b)` is unified under the leaked `X := a` and fails, so the
whole proof fails (first conjunct) — although the second candidate alone
succeeds with `X := b` from the same original empty environment (second
conjunct); the third conjunct exhibits the leaked binding blocking the
second head unification. -/
theorem c1_body_failure_leaks_bindings :
    prove 10 (.rel "p" [.var "X"]) []
      ⟨[("p", .cls [Rule (.rel "p" [.atom "a"]) [.rel "q" [.atom "b"]],
                    Fact (.rel "p" [.atom "b"])])]⟩ 0
      = some (none,
          ⟨[("p", .cls [Rule (.rel "p" [.atom "a"]) [.rel "q" [.atom "b"]],
                        Fact (.rel "p" [.atom "b"])]), ("q", .cls [])]⟩, 0) ∧
    prove 10 (.rel "p" [.var "X"]) [] ⟨[("p", .cls [Fact (.rel "p" [.atom "b"])])]⟩ 0
      = some (some [("X", .atom "b")], ⟨[("p", .cls [Fact (.rel "p" [.atom "b"])])]⟩, 0) ∧
    unify (.rel "p" [.var "X"]) (.rel "p" [.atom "b"]) [("X", .atom "a")] = none :=
  ⟨rfl, rfl, rfl⟩

/-- C2 (code bug): the claim states that failure is signalled only by the
sentinel, distinct from every success, and that an empty environment
returned by a successful `prove` is treated as success.  The code tests
truthiness (`if not unified`, `if not bindings`), and the empty dict is
falsy, so success with the empty environment is treated as failure:
unifying the ground goal `parent(tom, bob)` with the matching stored fact
from the empty environment succeeds with the empty environment (first
conjunct), yet `prove` on that goal from the empty environment fails
(second conjunct).  The vacuous-success equation
`prove_all([], {}) = {}` itself does hold (third conjunct). -/
theorem c2_empty_env_success_treated_as_failure :
    unify (.rel "parent" [.atom "tom", .atom "bob"])
        (Fact (.rel "parent" [.atom "tom", .atom "bob"])).head [] = some [] ∧
    prove 10 (.rel "parent" [.atom "tom", .atom "bob"]) []
        ⟨[("parent", .cls [Fact (.rel "parent" [.atom "tom", .atom "bob"])])]⟩ 0
      = some (none, ⟨[("parent", .cls [Fact (.rel "parent" [.atom "tom", .atom "bob"])])]⟩, 0) ∧
    proveAll 10 [] [] ⟨[("parent", .cls [Fact (.rel "parent" [.atom "tom", .atom "bob"])])]⟩ 0
      = some (some [], ⟨[("parent", .cls [Fact (.rel "parent" [.atom "tom", .atom "bob"])])]⟩, 0) :=
  ⟨rfl, rfl, rfl⟩

/-- C3 (code bug): the claim says variable identity is by name: binding
`v1` and then looking up an independently constructed `v2` with the same
name resolves exactly as looking up `v1` does.  `Var.__eq__` does compare
names (first conjunct), but `Var` defines no `__hash__`, so Python 2
dicts key `Var` objects by the id-based default hash.  After the dict
assignment binding `v1` (name `x`, id 1) to `Atom a`, `lookup(v1)`
returns the atom while `lookup(v2)` (name `x`, id 2) misses the entry
and returns `None` — the two equal variables do not resolve alike. -/
theorem c3_lookup_keyed_by_identity :
    objBeq (ObjTerm.var "x" 1) (ObjTerm.var "x" 2) = true ∧
    objEnvSet [] ("x", 1) (ObjTerm.atom "a") = [(("x", 1), ObjTerm.atom "a")] ∧
    objVarLookup ("x", 1) [(("x", 1), ObjTerm.atom "a")] = some (ObjTerm.atom "a") ∧
    objVarLookup ("x", 2) [(("x", 1), ObjTerm.atom "a")] = none :=
  ⟨rfl, rfl, rfl, rfl⟩

/-- C4 (counterexample): the claim says that in Variable×Variable
unification where exactly one side resolves, the unresolved variable is
bound to the *value* the resolved one points to, not to the other
variable.  In the environment `{x: a}`, `x` resolves to the atom `a` and
`z` does not resolve, yet unifying `x` with `z` binds `z` to the variable
`x` (the code's `bindings[other] = self`), not to the atom `a`. -/
theorem c4_counterexample :
    varLookup "x" [("x", Term.atom "a")] = some (Term.atom "a") ∧
    varLookup "z" [("x", Term.atom "a")] = none ∧
    unify (Term.var "x") (Term.var "z") [("x", Term.atom "a")]
      = some [("z", Term.var "x"), ("x", Term.atom "a")] ∧
    ¬ envGet [("z", Term.var "x"), ("x", Term.atom "a")] "z" = some (Term.atom "a") := by
  decide

/-- C4 (amended): for Variable×Variable unification with distinct names,
the code always creates a variable-to-variable binding: when exactly one
of the two resolves, the returned environment maps the unresolved
variable to the resolved *variable itself* (not directly to its value,
which remains reachable through lookup); when neither resolves, the
mutual variable-to-variable binding is created. -/
theorem c4_amended_var_var_binding (x z : String) (env : Env) (hxz : ¬ x = z) :
    ((varLookup x env).isSome = true → varLookup z env = none →
      unify (Term.var x) (Term.var z) env = some (envSet env z (Term.var x))) ∧
    (varLookup x env = none → (varLookup z env).isSome = true →
      unify (Term.var x) (Term.var z) env = some (envSet env x (Term.var z))) ∧
    (varLookup x env = none → varLookup z env = none →
      unify (Term.var x) (Term.var z) env
        = some (envSet (envSet env x (Term.var z)) z (Term.var x))) := by
  refine ⟨?_, ?_, ?_⟩
  · intro h1 h2
    rcases Option.isSome_iff_exists.mp h1 with ⟨t, ht⟩
    rw [unify, varUnify]
    simp only [if_neg hxz, ht, h2]
  · intro h1 h2
    rcases Option.isSome_iff_exists.mp h2 with ⟨t, ht⟩
    rw [unify, varUnify]
    simp only [if_neg hxz, ht, h1]
  · intro h1 h2
    rw [unify, varUnify]
    simp only [if_neg hxz, h1, h2]

theorem c4_amended_witness :
    unify (Term.var "x") (Term.var "z") [("x", Term.atom "a")]
      = some (envSet [("x", Term.atom "a")] "z" (Term.var "x")) :=
  (c4_amended_var_var_binding "x" "z" [("x", Term.atom "a")] (by decide)).1
    (by decide) (by decide)

/-- C5 (code bug): the claim says every occurrence of each source
variable is consistently replaced by the same freshly generated name.
`Clause.get_vars` ends in `list(set(vars))` and `recursive_rename` keys
its renames dict by the `Var` objects; with the id-based default hash
(no `Var.__hash__`) both are per object, not per variable name.  The
clause `p(x, x)` built from two distinct `Var('x')` objects (ids 1 and
2) — one source variable by `Var.__eq__` (first conjunct) — is renamed
inconsistently to `p(var0, var1)`, consuming two counter values (second
conjunct); only occurrences of the same object are renamed consistently
(third conjunct). -/
theorem c5_rename_keyed_by_identity :
    objBeq (ObjTerm.var "x" 1) (ObjTerm.var "x" 2) = true ∧
    objRecursiveRename ⟨ObjTerm.rel "p" [ObjTerm.var "x" 1, ObjTerm.var "x" 2], []⟩ 0
      = (⟨ObjTerm.rel "p" [ObjTerm.var "var0" 0, ObjTerm.var "var1" 1], []⟩, 2) ∧
    objRecursiveRename ⟨ObjTerm.rel "p" [ObjTerm.var "x" 1, ObjTerm.var "x" 1], []⟩ 0
      = (⟨ObjTerm.rel "p" [ObjTerm.var "var0" 0, ObjTerm.var "var0" 0], []⟩, 1) :=
  ⟨rfl, rfl, rfl⟩

/-- C6 (confirmed): `Var.lookup` terminates on every environment,
including cyclic ones: the visited-node loop reaches a result within
`env.length + 1` iterations for every environment and start variable (the
exact fuel `varLookup` runs it with), and on the mutual binding
`x ↦ y, y ↦ x` with neither variable grounded it stops after a single hop,
returning `y`. -/
theorem c6_lookup_terminates :
    (∀ (env : Env) (x : String), ∃ r,
      lookupGo env (env.length + 1) (envGet env x)
          (Term.var x :: (envGet env x).toList) = some r ∧
      varLookup x env = r) ∧
    varLookup "x" [("x", Term.var "y"), ("y", Term.var "x")] = some (Term.var "y") := by
  constructor
  · intro env x
    exact ⟨varLookup x env, varLookup_spec env x, rfl⟩
  · decide

/-- C7 (confirmed): lookup resolves transitive binding chains to their
terminal value: if the environment binds `v` through the (distinct)
variables `vs` to the literal `a` — in particular directly, with
`vs = []` — then `lookup` returns that literal. -/
theorem c7_chain_lookup (env : Env) (v : String) (vs : List String) (a : String)
    (hch : isChainB env v vs a = true) (hnd : (v :: vs).Nodup) :
    varLookup v env = some (Term.atom a) :=
  varLookup_chain env v vs a hch hnd

theorem c7_witness :
    varLookup "v1" [("v1", Term.var "v2"), ("v2", Term.var "v3"), ("v3", Term.atom "x")]
      = some (Term.atom "x") :=
  c7_chain_lookup [("v1", Term.var "v2"), ("v2", Term.var "v3"), ("v3", Term.atom "x")]
    "v1" ["v2", "v3"] "x" (by decide) (by decide)

/-- C8 (confirmed): Relation×Relation unification succeeds exactly through
the pairwise left-to-right argument loop when the predicate names and
argument counts match, and is the failure sentinel otherwise, regardless
of the arguments; the loop short-circuits to the failure sentinel at the
first failing argument pair (never returning a partially extended
environment) and threads each step's output environment into the next
step. -/
theorem c8_relation_unify (p q : String) (as bs : List Term) (env : Env) :
    (unify (.rel p as) (.rel q bs) env =
      if p = q ∧ as.length = bs.length then unifyArgs as bs env else none) ∧
    (∀ a b, unify a b env = none → unifyArgs (a :: as) (b :: bs) env = none) ∧
    (∀ a b env2, unify a b env = some env2 →
      unifyArgs (a :: as) (b :: bs) env = unifyArgs as bs env2) := by
  refine ⟨?_, ?_, ?_⟩
  · rw [unify]
    by_cases hpq : p = q
    · by_cases hlen : as.length = bs.length
      · simp [hpq, hlen]
      · simp [hpq, hlen]
    · simp [hpq]
  · intro a b h
    rw [unifyArgs]
    simp only [h]
  · intro a b env2 h
    rw [unifyArgs]
    simp only [h]

theorem c8_witness :
    (unify (.rel "p" [Term.var "X"]) (.rel "q" [Term.var "X"]) [] =
      if ("p" : String) = "q" ∧ ([Term.var "X"] : List Term).length = ([Term.var "X"] : List Term).length
      then unifyArgs [Term.var "X"] [Term.var "X"] [] else none) ∧
    unifyArgs [Term.atom "a", Term.var "X"] [Term.atom "b", Term.var "X"] [] = none ∧
    unifyArgs [Term.atom "a"] [Term.atom "a"] [] = unifyArgs [] [] [] :=
  ⟨(c8_relation_unify "p" "q" [Term.var "X"] [Term.var "X"] []).1,
   (c8_relation_unify "p" "q" [Term.var "X"] [Term.var "X"] []).2.1
     (Term.atom "a") (Term.atom "b") (by decide),
   (c8_relation_unify "p" "q" [] [] []).2.2 (Term.atom "a") (Term.atom "a") [] (by decide)⟩

/-- C9 (confirmed): clause candidates are tried in storage order with
first-solution semantics: `store` appends the clause at the end of the
list kept under its head's predicate, leaving all other predicates
unchanged; if trying only the first stored candidate succeeds, then with
any further candidates present the same environment is returned (no
further candidate is consulted); and `prove` hands the stored clause list
to the candidate loop in storage order. -/
theorem c9_storage_order_first_win :
    (∀ (db : Database) (c : Clause) (p : String) (args : List Term) (l : List Clause),
      c.head = Term.rel p args →
      dbGet db.clauses p = some (.cls l) →
      ∃ db2, dbStore db c = some db2 ∧
        dbGet db2.clauses p = some (.cls (l ++ [c])) ∧
        ∀ q, q ≠ p → dbGet db2.clauses q = dbGet db.clauses q) ∧
    (∀ (fuel : Nat) (gp : String) (gargs : List Term) (c1 : Clause) (rest : List Clause)
        (env e : Env) (db db' : Database) (ctr ctr' : Nat),
      proveClauses fuel gp gargs [c1] env db ctr = some (some e, db', ctr') →
      proveClauses fuel gp gargs (c1 :: rest) env db ctr = some (some e, db', ctr')) ∧
    (∀ (fuel : Nat) (gp : String) (gargs : List Term) (env : Env) (db : Database)
        (ctr : Nat) (c : Clause) (cs : List Clause),
      dbGet db.clauses gp = some (.cls (c :: cs)) →
      prove (fuel + 1) (.rel gp gargs) env db ctr
        = proveClauses fuel gp gargs (c :: cs) env db ctr) := by
  refine ⟨?_, ?_, ?_⟩
  · intro db c p args l hh hget
    refine ⟨⟨replaceEntry db.clauses p (.cls (l ++ [c]))⟩, ?_, ?_, ?_⟩
    · rw [dbStore]
      simp only [hh, hget]
    · exact dbGet_replaceEntry_self db.clauses p _ _ hget
    · intro q hq
      exact dbGet_replaceEntry_ne db.clauses p q _ hq
  · intro fuel gp gargs c1 rest env e db db' ctr ctr' h
    exact proveClauses_first_win fuel gp gargs c1 rest env e db db' ctr ctr' h
  · intro fuel gp gargs env db ctr c cs h
    exact prove_dispatch fuel gp gargs env db ctr cs c h

theorem c9_witness :
    (∃ db2, dbStore ⟨[("p", .cls [Fact (.rel "p" [.atom "a"])])]⟩ (Fact (.rel "p" [.atom "b"]))
        = some db2 ∧
      dbGet db2.clauses "p"
        = some (.cls [Fact (.rel "p" [.atom "a"]), Fact (.rel "p" [.atom "b"])]) ∧
      ∀ q, q ≠ "p" → dbGet db2.clauses q
        = dbGet [("p", DbEntry.cls [Fact (.rel "p" [.atom "a"])])] q) ∧
    proveClauses 5 "p" [Term.var "X"]
        [Fact (.rel "p" [.atom "a"]), Fact (.rel "p" [.atom "b"])] [] ⟨[]⟩ 0
      = some (some [("X", Term.atom "a")], ⟨[]⟩, 0) ∧
    prove 6 (.rel "p" [Term.var "X"])
        [] ⟨[("p", .cls [Fact (.rel "p" [.atom "a"]), Fact (.rel "p" [.atom "b"])])]⟩ 0
      = proveClauses 5 "p" [Term.var "X"]
          [Fact (.rel "p" [.atom "a"]), Fact (.rel "p" [.atom "b"])] []
          ⟨[("p", .cls [Fact (.rel "p" [.atom "a"]), Fact (.rel "p" [.atom "b"])])]⟩ 0 :=
  ⟨c9_storage_order_first_win.1 ⟨[("p", .cls [Fact (.rel "p" [.atom "a"])])]⟩
      (Fact (.rel "p" [.atom "b"])) "p" [.atom "b"] [Fact (.rel "p" [.atom "a"])] rfl rfl,
   c9_storage_order_first_win.2.1 5 "p" [Term.var "X"] (Fact (.rel "p" [.atom "a"]))
      [Fact (.rel "p" [.atom "b"])] [] [("X", Term.atom "a")] ⟨[]⟩ ⟨[]⟩ 0 0 rfl,
   c9_storage_order_first_win.2.2 5 "p" [Term.var "X"] []
      ⟨[("p", .cls [Fact (.rel "p" [.atom "a"]), Fact (.rel "p" [.atom "b"])])]⟩ 0
      (Fact (.rel "p" [.atom "a"])) [Fact (.rel "p" [.atom "b"])] rfl⟩

/-- C10 (confirmed): `Database.query` is not read-only: on a predicate
name with no stored clauses and no registered primitive (no entry at
all), `query` returns the empty clause list and the database extended
with an empty clause list under that name, every other entry unchanged;
consequently `prove` on a goal with that predicate fails and returns the
mutated database. -/
theorem c10_query_inserts_empty_entry (db : Database) (name : String)
    (h : dbGet db.clauses name = none) :
    dbQuery db name = (.cls [], ⟨db.clauses ++ [(name, .cls [])]⟩) ∧
    dbGet (db.clauses ++ [(name, .cls [])]) name = some (.cls []) ∧
    (∀ m, m ≠ name → dbGet (db.clauses ++ [(name, .cls [])]) m = dbGet db.clauses m) ∧
    (∀ (fuel : Nat) (args : List Term) (env : Env) (ctr : Nat),
      prove (fuel + 1) (.rel name args) env db ctr
        = some (none, ⟨db.clauses ++ [(name, .cls [])]⟩, ctr)) := by
  refine ⟨?_, ?_, ?_, ?_⟩
  · rw [dbQuery]
    simp only [h]
  · rw [dbGet_append_of_none db.clauses _ name h]
    simp [dbGet]
  · intro m hm
    exact dbGet_append_single_ne db.clauses name m _ hm
  · intro fuel args env ctr
    exact prove_missing fuel name args env db ctr h

theorem c10_witness :
    dbQuery ⟨[("p", DbEntry.cls [])]⟩ "q"
      = (.cls [], ⟨[("p", DbEntry.cls []), ("q", DbEntry.cls [])]⟩) ∧
    dbGet [("p", DbEntry.cls []), ("q", DbEntry.cls [])] "q" = some (.cls []) ∧
    (∀ m, m ≠ "q" → dbGet [("p", DbEntry.cls []), ("q", DbEntry.cls [])] m
      = dbGet [("p", DbEntry.cls [])] m) ∧
    (∀ (fuel : Nat) (args : List Term) (env : Env) (ctr : Nat),
      prove (fuel + 1) (.rel "q" args) env ⟨[("p", DbEntry.cls [])]⟩ ctr
        = some (none, ⟨[("p", DbEntry.cls []), ("q", DbEntry.cls [])]⟩, ctr)) :=
  c10_query_inserts_empty_entry ⟨[("p", DbEntry.cls [])]⟩ "q" rfl

end PaipLogic
